import Mathlib

/-!
Shallow embedding of the Telegram reminder bot (`src/index.ts`).

Strings are modelled as `List Char`.  The JavaScript string operations used
by the source (`split`, `trim`, `toLowerCase`, `includes`, the regex tests)
are modelled as executable Lean functions below; the SQLite-backed reminder
table is modelled as a list of rows plus an autoincrement counter.
-/

namespace ReminderBot

/-- Whitespace test: models the whitespace class used by JavaScript `trim`
and `\s` for the characters that can occur in Telegram message text. -/
def isWS (c : Char) : Bool := c = ' ' ∨ c = '\t' ∨ c = '\n' ∨ c = '\r'

/-- ASCII digit test (`\d` in the source's regexes). -/
def isDigitC (c : Char) : Bool := 48 ≤ c.toNat && c.toNat ≤ 57

/-- ASCII upper-case letter test. -/
def isUpperA (c : Char) : Bool := 65 ≤ c.toNat && c.toNat ≤ 90

/-- One character of JavaScript `toLowerCase` (ASCII case mapping, which is
the relevant range for the command keywords, day names and time tokens). -/
def toLowerChar (c : Char) : Char :=
  if isUpperA c then Char.ofNat (c.toNat + 32) else c

/-- JavaScript `String.prototype.toLowerCase` (ASCII range). -/
def toLowerStr (s : List Char) : List Char := s.map toLowerChar

/-- JavaScript `String.prototype.trim`: drop whitespace at both ends. -/
def trimWS (s : List Char) : List Char :=
  ((s.dropWhile isWS).reverse.dropWhile isWS).reverse

/-- Index of the first occurrence of `sep` as a contiguous substring of `s`
(`String.prototype.indexOf`). -/
def findSub (sep : List Char) : List Char → Option Nat
  | [] => if sep = [] then some 0 else none
  | c :: rest =>
    if sep.isPrefixOf (c :: rest) then some 0
    else (findSub sep rest).map (· + 1)

/-- JavaScript `String.prototype.includes`. -/
def containsSub (sep s : List Char) : Bool := (findSub sep s).isSome

/-- Worker for `jsSplit`; `acc` holds the (reversed) characters of the
current field, and `fuel` bounds the recursion depth (structural recursion
on `fuel` keeps the function kernel-reducible; `jsSplit` always supplies
enough fuel). -/
def jsSplitF (sep : List Char) : Nat → List Char → List Char → List (List Char)
  | 0, acc, s => [acc.reverse ++ s]
  | _ + 1, acc, [] => [acc.reverse]
  | fuel + 1, acc, c :: rest =>
    if sep ≠ [] ∧ sep.isPrefixOf (c :: rest) then
      acc.reverse :: jsSplitF sep fuel [] (rest.drop (sep.length - 1))
    else
      jsSplitF sep fuel (c :: acc) rest

/-- JavaScript `String.prototype.split` with a non-empty string separator
and no limit (the source only splits on `"every"`, `" "` and `","`;
the empty-separator behaviour of JS `split` is not modelled). -/
def jsSplit (sep s : List Char) : List (List Char) :=
  jsSplitF sep (s.length + 1) [] s

theorem findSub_nil {sep : List Char} (h : sep ≠ []) : findSub sep [] = none := by
  simp [findSub, h]

/-- The fuel argument of `jsSplitF` is irrelevant once it exceeds the
length of the string being split. -/
theorem jsSplitF_congr (sep : List Char) :
    ∀ f1 f2 acc s, s.length < f1 → s.length < f2 →
      jsSplitF sep f1 acc s = jsSplitF sep f2 acc s
  | _ + 1, _ + 1, _, [], _, _ => rfl
  | f1 + 1, f2 + 1, acc, c :: rest, h1, h2 => by
    simp only [List.length_cons] at h1 h2
    simp only [jsSplitF]
    by_cases hp : sep ≠ [] ∧ sep.isPrefixOf (c :: rest)
    · rw [if_pos hp, if_pos hp]
      have hd1 : (rest.drop (sep.length - 1)).length < f1 := by
        simp only [List.length_drop]
        omega
      have hd2 : (rest.drop (sep.length - 1)).length < f2 := by
        simp only [List.length_drop]
        omega
      rw [jsSplitF_congr sep f1 f2 [] _ hd1 hd2]
    · rw [if_neg hp, if_neg hp,
        jsSplitF_congr sep f1 f2 (c :: acc) rest (by omega) (by omega)]

/-- Characterisation of `jsSplitF` through the first occurrence of the
separator. -/
theorem jsSplitF_eq {sep : List Char} (hsep : sep ≠ []) :
    ∀ fuel acc s, s.length < fuel →
      jsSplitF sep fuel acc s =
        match findSub sep s with
        | none => [acc.reverse ++ s]
        | some i => (acc.reverse ++ s.take i) :: jsSplit sep (s.drop (i + sep.length))
  | fuel + 1, acc, [], _ => by
    rw [findSub_nil hsep]
    simp [jsSplitF]
  | fuel + 1, acc, c :: rest, hlen => by
    simp only [List.length_cons] at hlen
    by_cases hp : sep.isPrefixOf (c :: rest)
    · have h0 : findSub sep (c :: rest) = some 0 := by simp [findSub, hp]
      rw [h0]
      have hdrop : rest.drop (sep.length - 1) = (c :: rest).drop sep.length := by
        cases sep with
        | nil => exact absurd rfl hsep
        | cons a l => simp
      simp only [jsSplitF]
      rw [if_pos ⟨hsep, hp⟩, hdrop]
      have hfl : ((c :: rest).drop sep.length).length < fuel := by
        cases sep with
        | nil => exact absurd rfl hsep
        | cons a l =>
          simp only [List.length_drop, List.length_cons]
          omega
      rw [jsSplitF_congr sep fuel (((c :: rest).drop sep.length).length + 1) [] _
        hfl (by omega)]
      simp [jsSplit]
    · have h0 : findSub sep (c :: rest) = (findSub sep rest).map (· + 1) := by
        simp [findSub, hp]
      rw [h0]
      have hstep : jsSplitF sep (fuel + 1) acc (c :: rest)
          = jsSplitF sep fuel (c :: acc) rest := by
        simp only [jsSplitF]
        rw [if_neg]
        intro hcon
        exact hp hcon.2
      rw [hstep, jsSplitF_eq hsep fuel (c :: acc) rest (by omega)]
      cases hf : findSub sep rest with
      | none => simp
      | some i =>
        have h1 : i + 1 + sep.length = (i + sep.length) + 1 := by omega
        show ((c :: acc).reverse ++ rest.take i) ::
            jsSplit sep (rest.drop (i + sep.length)) =
          (acc.reverse ++ (c :: rest).take (i + 1)) ::
            jsSplit sep ((c :: rest).drop (i + 1 + sep.length))
        rw [h1]
        simp

/-- `jsSplit` unfolds along the first occurrence of the separator. -/
theorem jsSplit_eq {sep : List Char} (hsep : sep ≠ []) (s : List Char) :
    jsSplit sep s =
      match findSub sep s with
      | none => [s]
      | some i => s.take i :: jsSplit sep (s.drop (i + sep.length)) := by
  rw [jsSplit, jsSplitF_eq hsep (s.length + 1) [] s (by omega)]
  cases findSub sep s <;> simp

/-- The literal `"every"` (split keyword of `/addReminder`). -/
def everyL : List Char := ['e', 'v', 'e', 'r', 'y']

/-- The literal `"remind"` (optional leading token stripped from the message). -/
def remindL : List Char := ['r', 'e', 'm', 'i', 'n', 'd']

/-- The literal `"yes"` stored in the `recurring` column. -/
def yesL : List Char := ['y', 'e', 's']

/-- `daysOfWeek` from the source, in order `sunday..saturday`. -/
def daysOfWeek : List (List Char) :=
  [['s', 'u', 'n', 'd', 'a', 'y'],
   ['m', 'o', 'n', 'd', 'a', 'y'],
   ['t', 'u', 'e', 's', 'd', 'a', 'y'],
   ['w', 'e', 'd', 'n', 'e', 's', 'd', 'a', 'y'],
   ['t', 'h', 'u', 'r', 's', 'd', 'a', 'y'],
   ['f', 'r', 'i', 'd', 'a', 'y'],
   ['s', 'a', 't', 'u', 'r', 'd', 'a', 'y']]

/-- `messagePartRaw.replace(/^remind\s*‍/, "")`: if the text starts with the
literal `remind`, drop it together with the following whitespace run. -/
def stripRemind (s : List Char) : List Char :=
  if remindL.isPrefixOf s then (s.drop 6).dropWhile isWS else s

theorem jsSplit_ne_nil {sep : List Char} (hsep : sep ≠ []) (s : List Char) :
    jsSplit sep s ≠ [] := by
  rw [jsSplit_eq hsep]
  cases findSub sep s <;> simp

theorem isPrefixOf_eq_true_iff {l₁ l₂ : List Char} :
    l₁.isPrefixOf l₂ = true ↔ ∃ t, l₁ ++ t = l₂ := by
  rw [ List.isPrefixOf_iff_prefix]
  exact Iff.rfl

/-- `findSub` finds something exactly when the separator occurs as a
contiguous substring. -/
theorem findSub_isSome_iff {sep : List Char} :
    ∀ s : List Char, (findSub sep s).isSome = true ↔ ∃ u v, s = u ++ sep ++ v
  | [] => by
    by_cases hsep : sep = []
    · subst hsep
      exact ⟨fun _ => ⟨[], [], by simp⟩, fun _ => by simp [findSub]⟩
    · rw [findSub_nil hsep]
      simp only [Option.isSome_none, Bool.false_eq_true, false_iff]
      rintro ⟨u, v, huv⟩
      rcases List.append_eq_nil.mp (List.append_eq_nil.mp huv.symm).1 with ⟨-, h2⟩
      exact hsep h2
  | c :: rest => by
    by_cases hp : sep.isPrefixOf (c :: rest)
    · obtain ⟨t, ht⟩ := isPrefixOf_eq_true_iff.mp hp
      have : findSub sep (c :: rest) = some 0 := by simp [findSub, hp]
      simp only [this, Option.isSome_some, true_iff]
      exact ⟨[], t, by simp [ht]⟩
    · have : findSub sep (c :: rest) = (findSub sep rest).map (· + 1) := by
        simp [findSub, hp]
      rw [this]
      have hiso : (Option.map (fun x => x + 1) (findSub sep rest)).isSome
          = (findSub sep rest).isSome := by
        cases findSub sep rest <;> rfl
      rw [hiso, findSub_isSome_iff rest]
      constructor
      · rintro ⟨u, v, rfl⟩
        exact ⟨c :: u, v, by simp⟩
      · rintro ⟨u, v, huv⟩
        cases u with
        | nil =>
          exfalso
          apply hp
          rw [isPrefixOf_eq_true_iff]
          exact ⟨v, by simpa using huv.symm⟩
        | cons a u' =>
          rw [List.cons_append, List.cons_append, List.cons.injEq] at huv
          exact ⟨u', v, huv.2⟩

/-- `t` occurs as a contiguous segment of `s`. -/
def Segment (t s : List Char) : Prop := ∃ u v, s = u ++ t ++ v

theorem Segment.rfl {s : List Char} : Segment s s := ⟨[], [], by simp⟩

theorem Segment.trans {t r s : List Char} (h1 : Segment t r) (h2 : Segment r s) :
    Segment t s := by
  obtain ⟨u1, v1, h1⟩ := h1
  obtain ⟨u2, v2, h2⟩ := h2
  exact ⟨u2 ++ u1, v1 ++ v2, by simp [h1, h2]⟩

theorem segment_take (s : List Char) (n : Nat) : Segment (s.take n) s :=
  ⟨[], s.drop n, by simp⟩

theorem segment_drop (s : List Char) (n : Nat) : Segment (s.drop n) s :=
  ⟨s.take n, [], by simp⟩

theorem segment_dropWhile (s : List Char) (p : Char → Bool) :
    Segment (s.dropWhile p) s :=
  ⟨s.takeWhile p, [], by simp [List.takeWhile_append_dropWhile]⟩

theorem segment_trimWS (s : List Char) : Segment (trimWS s) s := by
  refine Segment.trans ?_ (segment_dropWhile s isWS)
  refine ⟨[], ((s.dropWhile isWS).reverse.takeWhile isWS).reverse, ?_⟩
  rw [List.nil_append, trimWS, ← List.reverse_append,
    List.takeWhile_append_dropWhile, List.reverse_reverse]

theorem segment_stripRemind (s : List Char) : Segment (stripRemind s) s := by
  rw [stripRemind]
  by_cases h : remindL.isPrefixOf s
  · rw [if_pos h]
    exact Segment.trans (segment_dropWhile _ isWS) (segment_drop s 6)
  · rw [if_neg h]
    exact Segment.rfl

theorem containsSub_iff {sep s : List Char} :
    containsSub sep s = true ↔ ∃ u v, s = u ++ sep ++ v := by
  rw [containsSub, findSub_isSome_iff]

theorem containsSub_mono {d t s : List Char} (h : containsSub d t = true)
    (hseg : Segment t s) : containsSub d s = true := by
  rw [containsSub_iff] at h ⊢
  obtain ⟨u, v, rfl⟩ := h
  obtain ⟨u2, v2, rfl⟩ := hseg
  exact ⟨u2 ++ u, v ++ v2, by simp⟩

theorem Segment.map {t s : List Char} (f : Char → Char) (h : Segment t s) :
    Segment (t.map f) (s.map f) := by
  obtain ⟨u, v, rfl⟩ := h
  exact ⟨u.map f, v.map f, by simp⟩

theorem Segment.mem {t s : List Char} (h : Segment t s) : ∀ c ∈ t, c ∈ s := by
  obtain ⟨u, v, rfl⟩ := h
  intro c hc
  simp [hc]

theorem toNat_ofNat_small {n : Nat} (h : n < 55296) : (Char.ofNat n).toNat = n := by
  have hv : n.isValidChar := Or.inl h
  rw [Char.ofNat, dif_pos hv]
  rfl

theorem isUpperA_toLowerChar (c : Char) : isUpperA (toLowerChar c) = false := by
  rw [toLowerChar]
  by_cases h : isUpperA c = true
  · rw [if_pos h]
    have hb : 65 ≤ c.toNat ∧ c.toNat ≤ 90 := by
      simpa [isUpperA, Bool.and_eq_true, decide_eq_true_eq] using h
    have h32 : (Char.ofNat (c.toNat + 32)).toNat = c.toNat + 32 :=
      toNat_ofNat_small (by omega)
    simp only [isUpperA, h32, Bool.and_eq_false_iff, decide_eq_false_iff_not]
    omega
  · rw [if_neg (by simpa using h)]
    simpa using h

theorem toLowerChar_of_notUpper {c : Char} (h : isUpperA c = false) :
    toLowerChar c = c := by
  rw [toLowerChar, if_neg (by simp [h])]

theorem toLowerChar_idem (c : Char) : toLowerChar (toLowerChar c) = toLowerChar c :=
  toLowerChar_of_notUpper (isUpperA_toLowerChar c)

theorem toLowerStr_idem (s : List Char) : toLowerStr (toLowerStr s) = toLowerStr s := by
  simp [toLowerStr, List.map_map, Function.comp_def, toLowerChar_idem]

/-- No ASCII upper-case letter occurs in `s`. -/
def noUpper (s : List Char) : Bool := s.all (fun c => !(isUpperA c))

theorem noUpper_toLowerStr (s : List Char) : noUpper (toLowerStr s) = true := by
  rw [noUpper, List.all_eq_true]
  intro c hc
  obtain ⟨c0, -, rfl⟩ := List.mem_map.mp hc
  simp [isUpperA_toLowerChar]

theorem noUpper_of_segment {t s : List Char} (hseg : Segment t s)
    (h : noUpper s = true) : noUpper t = true := by
  rw [noUpper, List.all_eq_true] at h ⊢
  exact fun c hc => h c (hseg.mem c hc)

/-! ### The `/addReminder` parsing pipeline (src/index.ts lines 83–132) -/

/-- `messagePartRaw`: first field of `text.split("every")`. -/
def messagePartRawOf (text : List Char) : List Char := (jsSplit everyL text).headD []

/-- `dayTimePartRaw`: second field of `text.split("every")` (the JS
destructuring `const [messagePartRaw, dayTimePartRaw] = text.split("every")`
takes elements 0 and 1 of the full split). -/
def dayTimePartRawOf (text : List Char) : List Char := (jsSplit everyL text).getD 1 []

/-- `messagePart = messagePartRaw.replace(/^remind\s*‍/, "").trim()`. -/
def messagePartOf (text : List Char) : List Char :=
  trimWS (stripRemind (messagePartRawOf text))

/-- `dayTimePart = dayTimePartRaw.trim()`. -/
def dayTimePartOf (text : List Char) : List Char := trimWS (dayTimePartRawOf text)

/-- `foundDays = daysOfWeek.filter(day => dayTimePart.toLowerCase().includes(day))`. -/
def foundDaysOf (text : List Char) : List (List Char) :=
  daysOfWeek.filter (fun day => containsSub day (toLowerStr (dayTimePartOf text)))

/-- Is `am` or `pm` (case-insensitively) at the head of the list?
Returns `some true` for `pm`, `some false` for `am`. -/
def meridAt : List Char → Option Bool
  | a :: m :: _ =>
    if toLowerChar m = 'm' then
      if toLowerChar a = 'a' then some false
      else if toLowerChar a = 'p' then some true
      else none
    else none
  | _ => none

/-- Truthiness of `part.match(/\d{1,2}(am|pm)/i)`: the regex is unanchored,
so a match exists exactly when some digit is immediately followed by
`am` or `pm` (case-insensitively). -/
def hasTimeToken : List Char → Bool
  | [] => false
  | c :: rest => (isDigitC c && (meridAt rest).isSome) || hasTimeToken rest

/-- JS `Array.prototype.join(" ")`. -/
def joinSpace : List (List Char) → List Char
  | [] => []
  | [x] => x
  | x :: xs => x ++ ' ' :: joinSpace xs

/-- `timePart = dayTimePart.split(" ").filter(p => p.match(/\d{1,2}(am|pm)/i)).join(" ")`. -/
def timePartOf (text : List Char) : List Char :=
  joinSpace ((jsSplit [' '] (dayTimePartOf text)).filter hasTimeToken)

/-- Modelled from the spec: the first `\d{1,2}(am|pm)` time token in the
string handed to the external natural-language time parser.  Returns the
hour value and whether the meridiem is `pm`. -/
def scanTime : List Char → Option (Nat × Bool)
  | [] => none
  | c :: rest =>
    if isDigitC c then
      match rest with
      | c2 :: rest2 =>
        if isDigitC c2 then
          match meridAt rest2 with
          | some pm => some ((c.toNat - 48) * 10 + (c2.toNat - 48), pm)
          | none => scanTime rest
        else
          match meridAt rest with
          | some pm => some (c.toNat - 48, pm)
          | none => scanTime rest
      | [] => none
    else scanTime rest

/-- 12-hour to 24-hour conversion (`8pm ↦ 20`, `12am ↦ 0`, `12pm ↦ 12`). -/
def to24 (h : Nat) (pm : Bool) : Nat := if pm then h % 12 + 12 else h % 12

/-- Zero-padded two-digit decimal rendering (hours `0..23`). -/
def twoDigits (n : Nat) : List Char :=
  [Char.ofNat (48 + n / 10), Char.ofNat (48 + n % 10)]

/-- Modelled from the spec: `chrono.parseDate` composed with the fixed
IST normalization (`moment(parsed).tz("Asia/Kolkata", true)`) and the
`HH:MM` truncation (`toTimeString().slice(0, 5)`), which live in the
external collaborators chrono-node and moment-timezone, not in this
repository's source.  Per the spec (§4.2 steps 6–7 and §8), a string
containing a `\d{1,2}(am|pm)` token parses to that wall-clock hour in
the target timezone with minutes `00`, and an unparseable string (in
particular the empty string) yields no result. -/
def parseNormalize (s : List Char) : Option (List Char) :=
  match scanTime s with
  | none => none
  | some (h, pm) => some (twoDigits (to24 h pm) ++ [':', '0', '0'])

/-! ### The reminder store (SQLite table `reminders`) and the handlers -/

/-- One row of the `reminders` table (`CREATE TABLE` at src/index.ts:25–34). -/
structure Reminder where
  id : Nat
  chat_id : List Char
  message : List Char
  day_of_week : List Char
  time : List Char
  recurring : List Char
deriving DecidableEq, Repr

/-- The `reminders` table: rows plus the `AUTOINCREMENT` counter. -/
structure Store where
  rows : List Reminder
  nextId : Nat
deriving DecidableEq, Repr

/-- `INSERT INTO reminders (chat_id, message, day_of_week, time, recurring)`. -/
def create (owner message day time : List Char) (st : Store) : Store :=
  { rows := st.rows ++ [⟨st.nextId, owner, message, day, time, yesL⟩],
    nextId := st.nextId + 1 }

/-- `foundDays.forEach(day => INSERT ...)` — one insert per matched day. -/
def insertAll (owner message : List Char) (days : List (List Char))
    (time : List Char) (st : Store) : Store :=
  days.foldl (fun s day => create owner message day time s) st

/-- `SELECT * FROM reminders WHERE chat_id = ?`. -/
def listByOwner (owner : List Char) (st : Store) : List Reminder :=
  st.rows.filter (fun r => r.chat_id = owner)

/-- `DELETE FROM reminders WHERE id = ? AND chat_id = ?`; returns
(`this.changes`, updated store). -/
def deleteReminder (rid : Nat) (owner : List Char) (st : Store) : Nat × Store :=
  let keep := st.rows.filter (fun r => ¬(r.id = rid ∧ r.chat_id = owner))
  (st.rows.length - keep.length, { st with rows := keep })

/-- `UPDATE reminders SET message = ? WHERE id = ? AND chat_id = ?`; returns
(`this.changes`, updated store). -/
def updateMessage (rid : Nat) (owner newMessage : List Char) (st : Store) :
    Nat × Store :=
  ((st.rows.filter (fun r => r.id = rid ∧ r.chat_id = owner)).length,
   { st with rows := st.rows.map (fun r =>
       if r.id = rid ∧ r.chat_id = owner then { r with message := newMessage } else r) })

/-- `SELECT * FROM reminders WHERE day_of_week = ? AND time = ?` — the
scheduler's due-now query, unscoped by owner. -/
def findMatching (day time : List Char) (st : Store) : List Reminder :=
  st.rows.filter (fun r => r.day_of_week = day ∧ r.time = time)

/-- The text sent by the scheduler: `🔔 Reminder: ${row.message}`. -/
def deliveryText (m : List Char) : List Char :=
  ['🔔', ' ', 'R', 'e', 'm', 'i', 'n', 'd', 'e', 'r', ':', ' '] ++ m

/-- One scheduler tick at day-of-week `day` and wall-clock `time`
(src/index.ts:313–338): the list of `(chat_id, text)` deliveries emitted. -/
def tick (day time : List Char) (st : Store) : List (List Char × List Char) :=
  (findMatching day time st).map (fun r => (r.chat_id, deliveryText r.message))

/-- Outcome of the `/addReminder` handler: the three specific error replies
or success with the matched days and normalized time. -/
inductive AddResult
  | errNoEvery
  | errNoDays
  | errNoTime
  | ok (days : List (List Char)) (timeStr : List Char)
deriving DecidableEq, Repr

/-- The `/addReminder` handler (src/index.ts:77–148): lower-case the
argument, require `"every"`, split, extract days and time, and insert one
row per matched day. -/
def addReminder (owner rawArg : List Char) (st : Store) : AddResult × Store :=
  let text := toLowerStr rawArg
  if containsSub everyL text then
    if foundDaysOf text = [] then (.errNoDays, st)
    else
      match parseNormalize (timePartOf text) with
      | none => (.errNoTime, st)
      | some timeStr =>
        (.ok (foundDaysOf text) timeStr,
         insertAll owner (messagePartOf text) (foundDaysOf text) timeStr st)
  else (.errNoEvery, st)

/-- Outcome of the `/deleteReminder` and `/updateReminder` handlers. -/
inductive OneResult
  | notFound (rid : Nat)
  | done (rid : Nat)
deriving DecidableEq, Repr

/-- The `/deleteReminder` handler (src/index.ts:185–215). -/
def deleteHandler (rid : Nat) (owner : List Char) (st : Store) :
    OneResult × Store :=
  let res := deleteReminder rid owner st
  (if res.1 = 0 then .notFound rid else .done rid, res.2)

/-- The `/updateReminder` handler (src/index.ts:263–294). -/
def updateHandler (rid : Nat) (owner newMessage : List Char) (st : Store) :
    OneResult × Store :=
  let res := updateMessage rid owner newMessage st
  (if res.1 = 0 then .notFound rid else .done rid, res.2)

/-- `!isNaN(Number(tok))` for an already-trimmed token: JS `Number` accepts
the empty string (value `0`), signed decimal literals with optional
fraction and exponent, `Infinity`, and unsigned `0x`/`0o`/`0b` literals. -/
def jsIsNumeric (s : List Char) : Bool :=
  let infinityL : List Char := ['I', 'n', 'f', 'i', 'n', 'i', 't', 'y']
  let stripSign : List Char → List Char := fun l =>
    match l with
    | '+' :: r => r
    | '-' :: r => r
    | l => l
  let isHexD : Char → Bool := fun c =>
    isDigitC c || (97 ≤ (toLowerChar c).toNat && (toLowerChar c).toNat ≤ 102)
  let isOctD : Char → Bool := fun c => 48 ≤ c.toNat && c.toNat ≤ 55
  let isBinD : Char → Bool := fun c => c = '0' || c = '1'
  let decMantissa : List Char → Bool := fun l =>
    (l.count '.' ≤ 1) && l.all (fun c => isDigitC c || c = '.') && l.any isDigitC
  let expDigits : List Char → Bool := fun l =>
    stripSign l ≠ [] && (stripSign l).all isDigitC
  let decTail : List Char → Bool := fun l =>
    if l = infinityL then true
    else
      match l.findIdx? (fun c => c = 'e' ∨ c = 'E') with
      | none => decMantissa l
      | some i => decMantissa (l.take i) && expDigits (l.drop (i + 1))
  match s with
  | [] => true
  | '0' :: c :: rest =>
    if c = 'x' ∨ c = 'X' then rest ≠ [] && rest.all isHexD
    else if c = 'o' ∨ c = 'O' then rest ≠ [] && rest.all isOctD
    else if c = 'b' ∨ c = 'B' then rest ≠ [] && rest.all isBinD
    else decTail ('0' :: c :: rest)
  | s => decTail (stripSign s)

/-- The attempted id token list of `/deleteReminders`:
`match[1].split(",").map(t => t.trim()).filter(t => !isNaN(Number(t)))`.
The tokens are kept as strings in the source. -/
def reminderIdsOf (arg : List Char) : List (List Char) :=
  ((jsSplit [','] arg).map trimWS).filter jsIsNumeric

/-- A decimal-integer token (optionally `+`-signed), as a number.  Used to
model SQLite's INTEGER-affinity comparison of the bound text id with the
`id` column: an integer-literal token matches the row with that id, and a
numeric token with no integer value (e.g. `"2.5"`, `""`) matches no row. -/
def parseIntToken (s : List Char) : Option Nat :=
  let l := match s with | '+' :: r => r | l => l
  if l ≠ [] ∧ l.all isDigitC then
    some (l.foldl (fun n c => 10 * n + (c.toNat - 48)) 0)
  else none

/-- One `DELETE ... WHERE id = ? AND chat_id = ?` with a text-typed id. -/
def deleteByTextId (tok owner : List Char) (st : Store) : Store :=
  match parseIntToken tok with
  | some n => (deleteReminder n owner st).2
  | none => st

/-- Outcome of the `/deleteReminders` handler: the error reply for an empty
id list, or the success reply listing all attempted ids. -/
inductive DelManyResult
  | errNoIds
  | done (ids : List (List Char))
deriving DecidableEq, Repr

/-- The `/deleteReminders` handler (src/index.ts:218–260): parse the id
tokens, reject if none remain, otherwise issue one delete per token and
reply with the whole attempted list regardless of individual outcomes. -/
def deleteRemindersHandler (owner arg : List Char) (st : Store) :
    DelManyResult × Store :=
  let ids := reminderIdsOf arg
  if ids = [] then (.errNoIds, st)
  else (.done ids, ids.foldl (fun s tok => deleteByTextId tok owner s) st)

/-! ### Helper lemmas about the handlers -/

/-- The rows inserted by one successful add: one row per day, ids counting
up from `n`. -/
def freshRows (owner msg t : List Char) : Nat → List (List Char) → List Reminder
  | _, [] => []
  | n, d :: ds => ⟨n, owner, msg, d, t, yesL⟩ :: freshRows owner msg t (n + 1) ds

theorem insertAll_eq (owner msg t : List Char) :
    ∀ (days : List (List Char)) (st : Store),
      insertAll owner msg days t st =
        ⟨st.rows ++ freshRows owner msg t st.nextId days, st.nextId + days.length⟩
  | [], st => by simp [insertAll, freshRows]
  | d :: ds, st => by
    have hstep : insertAll owner msg (d :: ds) t st =
        insertAll owner msg ds t (create owner msg d t st) := by
      simp [insertAll]
    rw [hstep, insertAll_eq owner msg t ds (create owner msg d t st)]
    simp [create, freshRows]
    omega

theorem freshRows_length (owner msg t : List Char) :
    ∀ (n : Nat) (ds : List (List Char)),
      (freshRows owner msg t n ds).length = ds.length
  | _, [] => rfl
  | n, _ :: ds => by simp [freshRows, freshRows_length owner msg t (n + 1) ds]

theorem freshRows_map_id (owner msg t : List Char) :
    ∀ (n : Nat) (ds : List (List Char)),
      (freshRows owner msg t n ds).map Reminder.id = List.range' n ds.length
  | _, [] => rfl
  | n, d :: ds => by
    simp [freshRows, List.range', freshRows_map_id owner msg t (n + 1) ds]

theorem freshRows_map_day (owner msg t : List Char) :
    ∀ (n : Nat) (ds : List (List Char)),
      (freshRows owner msg t n ds).map Reminder.day_of_week = ds
  | _, [] => rfl
  | n, d :: ds => by
    simp [freshRows, freshRows_map_day owner msg t (n + 1) ds]

theorem freshRows_mem (owner msg t : List Char) :
    ∀ (n : Nat) (ds : List (List Char)) (r : Reminder),
      r ∈ freshRows owner msg t n ds →
        r.chat_id = owner ∧ r.message = msg ∧ r.time = t ∧
        r.recurring = yesL ∧ r.day_of_week ∈ ds
  | n, d :: ds, r, hmem => by
    rcases List.mem_cons.mp hmem with h | h
    · subst h
      simp
    · have := freshRows_mem owner msg t (n + 1) ds r h
      exact ⟨this.1, this.2.1, this.2.2.1, this.2.2.2.1, List.mem_cons_of_mem _ this.2.2.2.2⟩

/-- A successful `/addReminder` came through the success branch: the days
are the matched days, the time parsed, and the store got the fresh rows. -/
theorem addReminder_ok {owner raw : List Char} {st : Store}
    {ds : List (List Char)} {ts : List Char} {st' : Store}
    (h : addReminder owner raw st = (.ok ds ts, st')) :
    containsSub everyL (toLowerStr raw) = true ∧
    ds = foundDaysOf (toLowerStr raw) ∧
    parseNormalize (timePartOf (toLowerStr raw)) = some ts ∧
    st' = insertAll owner (messagePartOf (toLowerStr raw)) ds ts st := by
  simp only [addReminder] at h
  by_cases h1 : containsSub everyL (toLowerStr raw) = true
  · rw [if_pos h1] at h
    by_cases h2 : foundDaysOf (toLowerStr raw) = []
    · rw [if_pos h2] at h
      simp at h
    · rw [if_neg h2] at h
      cases hp : parseNormalize (timePartOf (toLowerStr raw)) with
      | none =>
        rw [hp] at h
        simp at h
      | some t0 =>
        rw [hp] at h
        rw [Prod.mk.injEq] at h
        obtain ⟨hA, hB⟩ := h
        injection hA with hds hts
        subst hds
        subst hts
        exact ⟨h1, rfl, rfl, hB.symm⟩
  · rw [if_neg h1] at h
    simp at h

theorem segment_messagePartRawOf (s : List Char) :
    Segment (messagePartRawOf s) s := by
  have hev : everyL ≠ [] := by decide
  rw [messagePartRawOf]
  cases hf : findSub everyL s with
  | none =>
    have h1 : jsSplit everyL s = [s] := by rw [jsSplit_eq hev, hf]
    rw [h1]
    exact Segment.rfl
  | some i =>
    have h2 : jsSplit everyL s =
        s.take i :: jsSplit everyL (s.drop (i + everyL.length)) := by
      rw [jsSplit_eq hev, hf]
    rw [h2]
    exact segment_take s i

theorem segment_dayTimePartRawOf (s : List Char) :
    Segment (dayTimePartRawOf s) s := by
  have hev : everyL ≠ [] := by decide
  rw [dayTimePartRawOf]
  cases hf : findSub everyL s with
  | none =>
    have h1 : jsSplit everyL s = [s] := by rw [jsSplit_eq hev, hf]
    rw [h1]
    exact ⟨[], s, rfl⟩
  | some i =>
    have h2 : jsSplit everyL s =
        s.take i :: jsSplit everyL (s.drop (i + everyL.length)) := by
      rw [jsSplit_eq hev, hf]
    rw [h2]
    cases hf2 : findSub everyL (s.drop (i + everyL.length)) with
    | none =>
      have h4 : jsSplit everyL (s.drop (i + everyL.length)) =
          [s.drop (i + everyL.length)] := by
        rw [jsSplit_eq hev, hf2]
      rw [h4]
      exact segment_drop s (i + everyL.length)
    | some j =>
      have h4 : jsSplit everyL (s.drop (i + everyL.length)) =
          (s.drop (i + everyL.length)).take j ::
            jsSplit everyL ((s.drop (i + everyL.length)).drop (j + everyL.length)) := by
        rw [jsSplit_eq hev, hf2]
      rw [h4]
      exact Segment.trans (segment_take _ j) (segment_drop s (i + everyL.length))

/-- The message stored by a successful add is a segment of the lower-cased
argument. -/
theorem segment_messagePartOf (s : List Char) : Segment (messagePartOf s) s :=
  Segment.trans (Segment.trans (segment_trimWS _) (segment_stripRemind _))
    (segment_messagePartRawOf s)

theorem segment_dayTimePartOf (s : List Char) : Segment (dayTimePartOf s) s :=
  Segment.trans (segment_trimWS _) (segment_dayTimePartRawOf s)

/-! ### Claim theorems -/

/-- C1: a scheduler tick at day-of-week `day` and wall-clock time `time`
emits a delivery for exactly the stored reminders whose `day_of_week`
equals `day` and whose `time` equals `time`, across all owners, and for no
other reminder; in particular at day `wednesday`, time `20:00`, reminders
at `20:01` or on `thursday` are not delivered. -/
theorem c1_tick_delivers_exact_matches :
    (∀ (st : Store) (day time : List Char) (p : List Char × List Char),
      p ∈ tick day time st ↔
        ∃ r ∈ st.rows, r.day_of_week = day ∧ r.time = time ∧
          p = (r.chat_id, deliveryText r.message)) ∧
    tick "wednesday".toList "20:00".toList
        ⟨[⟨1, "alice".toList, "m1".toList, "wednesday".toList, "20:00".toList, yesL⟩,
          ⟨2, "bob".toList, "m2".toList, "wednesday".toList, "20:01".toList, yesL⟩,
          ⟨3, "carol".toList, "m3".toList, "thursday".toList, "20:00".toList, yesL⟩], 4⟩
      = [("alice".toList, deliveryText "m1".toList)] := by
  constructor
  · intro st day time p
    constructor
    · intro hp
      obtain ⟨r, hr, rfl⟩ := List.mem_map.mp hp
      have hm := List.mem_filter.mp hr
      have hc := of_decide_eq_true hm.2
      exact ⟨r, hm.1, hc.1, hc.2, rfl⟩
    · rintro ⟨r, hr, hday, htime, rfl⟩
      exact List.mem_map.mpr
        ⟨r, List.mem_filter.mpr ⟨hr, decide_eq_true ⟨hday, htime⟩⟩, rfl⟩
  · decide

/-- The worked example argument of the spec (§8): the raw text that follows
`/addReminder`. -/
def c2Arg : List Char :=
  "remind to take out waste every sunday and wednesday 8pm".toList

/-- C2: parsing `"remind to take out waste every sunday and wednesday 8pm"`
yields message `"to take out waste"`, days `{sunday, wednesday}`, normalized
time `"20:00"` (IST), and the handler creates one reminder per day with
exactly those field values. -/
theorem c2_worked_example :
    messagePartOf (toLowerStr c2Arg) = "to take out waste".toList ∧
    foundDaysOf (toLowerStr c2Arg) = ["sunday".toList, "wednesday".toList] ∧
    parseNormalize (timePartOf (toLowerStr c2Arg)) = some "20:00".toList ∧
    addReminder "42".toList c2Arg ⟨[], 1⟩ =
      (.ok ["sunday".toList, "wednesday".toList] "20:00".toList,
       ⟨[⟨1, "42".toList, "to take out waste".toList, "sunday".toList,
           "20:00".toList, "yes".toList⟩,
         ⟨2, "42".toList, "to take out waste".toList, "wednesday".toList,
           "20:00".toList, "yes".toList⟩], 3⟩) := by
  decide

/-- The text strictly before the first occurrence of `sep` in `s`
(`s` itself when `sep` does not occur). -/
def beforeFirst (sep s : List Char) : List Char :=
  match findSub sep s with
  | none => s
  | some i => s.take i

/-- The text strictly after the first occurrence of `sep` in `s`
(empty when `sep` does not occur). -/
def afterFirst (sep s : List Char) : List Char :=
  match findSub sep s with
  | none => []
  | some i => s.drop (i + sep.length)

/-- C3 counterexample: for the lower-cased argument `"a every b every c"`,
the text strictly after the first occurrence of `"every"` is
`" b every c"`, but the handler's `dayTimePartRaw` is `" b "` — JS
`split("every")` splits on *all* occurrences and the destructuring takes
element 1, so text after the second `"every"` is dropped. -/
theorem c3_counterexample :
    containsSub everyL (toLowerStr "a every b every c".toList) = true ∧
    afterFirst everyL (toLowerStr "a every b every c".toList) = " b every c".toList ∧
    dayTimePartRawOf (toLowerStr "a every b every c".toList) = " b ".toList ∧
    dayTimePartRawOf (toLowerStr "a every b every c".toList) ≠
      afterFirst everyL (toLowerStr "a every b every c".toList) := by
  decide

/-- C3 (amended): for every lower-cased argument containing `"every"`,
`messagePartRaw` is the text strictly before the first occurrence of
`"every"`, and `dayTimePartRaw` is the text strictly after that first
occurrence *truncated before the next occurrence of `"every"`* (to the end
of the text when `"every"` occurs only once); text after a second
occurrence is not part of `dayTimePartRaw`. -/
theorem c3_amended_split_semantics (s : List Char)
    (h : containsSub everyL s = true) :
    messagePartRawOf s = beforeFirst everyL s ∧
    dayTimePartRawOf s = beforeFirst everyL (afterFirst everyL s) := by
  have hev : everyL ≠ [] := by decide
  obtain ⟨i, hi⟩ : ∃ i, findSub everyL s = some i := by
    rw [containsSub] at h
    cases hf : findSub everyL s with
    | none => rw [hf] at h; cases h
    | some j => exact ⟨j, rfl⟩
  constructor
  · rw [messagePartRawOf, jsSplit_eq hev, hi, beforeFirst, hi]
    simp
  · have h3 : afterFirst everyL s = s.drop (i + everyL.length) := by
      simp only [afterFirst, hi]
    have h2 : jsSplit everyL s =
        s.take i :: jsSplit everyL (s.drop (i + everyL.length)) := by
      rw [jsSplit_eq hev, hi]
    rw [dayTimePartRawOf, h2, h3]
    cases hf2 : findSub everyL (s.drop (i + everyL.length)) with
    | none =>
      have h4 : jsSplit everyL (s.drop (i + everyL.length)) =
          [s.drop (i + everyL.length)] := by
        rw [jsSplit_eq hev, hf2]
      rw [h4]
      simp only [beforeFirst, hf2]
      rfl
    | some j =>
      have h4 : jsSplit everyL (s.drop (i + everyL.length)) =
          (s.drop (i + everyL.length)).take j ::
            jsSplit everyL ((s.drop (i + everyL.length)).drop (j + everyL.length)) := by
        rw [jsSplit_eq hev, hf2]
      rw [h4]
      simp only [beforeFirst, hf2]
      rfl

/-- C4 counterexample: the attempt set is *not* "the tokens that parse as
integers": for the argument `"1,2.5"` the code also attempts `"2.5"`
(because `Number("2.5")` is not `NaN`), and the lone non-integer argument
`"2.5"` is not rejected but produces a success reply listing `"2.5"`. -/
theorem c4_counterexample :
    reminderIdsOf "1,2.5".toList = ["1".toList, "2.5".toList] ∧
    (deleteRemindersHandler "9".toList "2.5".toList ⟨[], 5⟩).1 =
      .done ["2.5".toList] ∧
    (deleteRemindersHandler "9".toList "2.5".toList ⟨[], 5⟩).1 ≠ .errNoIds := by
  decide

/-- C4 (amended): the attempted id token list is exactly the
comma-separated, trimmed tokens that parse as JavaScript numbers
(`!isNaN(Number(tok))` — this keeps non-integer numeric tokens such as
`"2.5"` and the empty token, while `"abc"` is silently dropped, so
`"1,abc,3"` attempts exactly `{1, 3}`); if the resulting list is empty the
command is rejected with no delete issued, and otherwise one delete is
issued per token and the reply lists all attempted tokens regardless of
individual delete outcomes. -/
theorem c4_amended_delete_many (owner arg : List Char) (st : Store) :
    (∀ tok, tok ∈ reminderIdsOf arg ↔
      tok ∈ (jsSplit [','] arg).map trimWS ∧ jsIsNumeric tok = true) ∧
    (reminderIdsOf arg = [] →
      deleteRemindersHandler owner arg st = (.errNoIds, st)) ∧
    (reminderIdsOf arg ≠ [] →
      (deleteRemindersHandler owner arg st).1 = .done (reminderIdsOf arg) ∧
      (deleteRemindersHandler owner arg st).2 =
        (reminderIdsOf arg).foldl (fun s tok => deleteByTextId tok owner s) st) ∧
    reminderIdsOf "1,abc,3".toList = ["1".toList, "3".toList] := by
  refine ⟨fun tok => List.mem_filter, ?_, ?_, by decide⟩
  · intro hnil
    simp only [deleteRemindersHandler]
    rw [if_pos hnil]
  · intro hne
    simp only [deleteRemindersHandler]
    rw [if_neg hne]
    exact ⟨rfl, rfl⟩

/-- C5: every successful add with matched days `ds` (the distinct day names
found in the input) and parsed time `ts` appends exactly one row per day —
all with the same message and the same normalized time, with pairwise
distinct ids — and touches nothing else. -/
theorem c5_one_row_per_day {owner raw : List Char} {st : Store}
    {ds : List (List Char)} {ts : List Char} {st' : Store}
    (h : addReminder owner raw st = (.ok ds ts, st')) :
    ∃ newRows : List Reminder,
      st'.rows = st.rows ++ newRows ∧
      newRows.length = ds.length ∧
      ds.Nodup ∧
      newRows.map Reminder.day_of_week = ds ∧
      (∀ r ∈ newRows, r.chat_id = owner ∧
        r.message = messagePartOf (toLowerStr raw) ∧ r.time = ts) ∧
      (newRows.map Reminder.id).Nodup := by
  obtain ⟨h1, hds, hts, hst⟩ := addReminder_ok h
  refine ⟨freshRows owner (messagePartOf (toLowerStr raw)) ts st.nextId ds,
    ?_, ?_, ?_, ?_, ?_, ?_⟩
  · rw [hst, insertAll_eq]
  · exact freshRows_length _ _ _ _ _
  · rw [hds, foundDaysOf]
    exact List.Nodup.filter _ (by decide)
  · exact freshRows_map_day _ _ _ _ _
  · intro r hr
    have hm := freshRows_mem _ _ _ _ _ r hr
    exact ⟨hm.1, hm.2.1, hm.2.2.1⟩
  · rw [freshRows_map_id]
    exact List.nodup_range' _ _

/-- C6: every rejected add leaves the store untouched and produces the
matching specific error result: a lower-cased argument without `"every"`
yields the every-error; one with `"every"` but no day name anywhere in the
argument yields the day-error; one with days but no parseable time token
yields the time-error. -/
theorem c6_rejected_add_unchanged (owner raw : List Char) (st : Store) :
    (containsSub everyL (toLowerStr raw) = false →
      addReminder owner raw st = (.errNoEvery, st)) ∧
    (containsSub everyL (toLowerStr raw) = true →
      (∀ d ∈ daysOfWeek, containsSub d (toLowerStr raw) = false) →
      addReminder owner raw st = (.errNoDays, st)) ∧
    (containsSub everyL (toLowerStr raw) = true →
      foundDaysOf (toLowerStr raw) ≠ [] →
      parseNormalize (timePartOf (toLowerStr raw)) = none →
      addReminder owner raw st = (.errNoTime, st)) := by
  refine ⟨?_, ?_, ?_⟩
  · intro h1
    simp only [addReminder]
    rw [if_neg (by simp [h1])]
  · intro h1 hnoday
    have hempty : foundDaysOf (toLowerStr raw) = [] := by
      rw [foundDaysOf, List.filter_eq_nil_iff]
      intro d hd hcon
      have hseg : Segment (toLowerStr (dayTimePartOf (toLowerStr raw)))
          (toLowerStr (toLowerStr raw)) :=
        Segment.map toLowerChar (segment_dayTimePartOf (toLowerStr raw))
      rw [toLowerStr_idem] at hseg
      have hc2 := containsSub_mono hcon hseg
      rw [hnoday d hd] at hc2
      simp at hc2
    simp only [addReminder]
    rw [if_pos h1, if_pos hempty]
  · intro h1 h2 h3
    simp only [addReminder]
    rw [if_pos h1, if_neg h2, h3]

/-- C7: deleting or updating an id that does not exist for the requesting
owner (missing, or owned by someone else) is a zero-change no-op with a
distinct not-found reply, and a delete attempt never removes a reminder
owned by another chat: such a reminder stays retrievable by its true
owner. -/
theorem c7_not_found_is_noop {st : Store} {rid : Nat} {owner m : List Char}
    (h : ∀ r ∈ st.rows, ¬(r.id = rid ∧ r.chat_id = owner)) :
    (deleteReminder rid owner st).1 = 0 ∧
    deleteHandler rid owner st = (.notFound rid, st) ∧
    (updateMessage rid owner m st).1 = 0 ∧
    updateHandler rid owner m st = (.notFound rid, st) ∧
    (∀ (rid2 : Nat) (owner2 : List Char) (r : Reminder), r ∈ st.rows →
      r.chat_id ≠ owner2 →
      r ∈ listByOwner r.chat_id (deleteHandler rid2 owner2 st).2) := by
  have hkeep : st.rows.filter (fun r => ¬(r.id = rid ∧ r.chat_id = owner))
      = st.rows :=
    List.filter_eq_self.mpr (fun r hr => decide_eq_true (h r hr))
  have hdel : deleteReminder rid owner st = (0, st) := by
    simp only [deleteReminder]
    rw [hkeep]
    simp
  have hupdnil : st.rows.filter (fun r => r.id = rid ∧ r.chat_id = owner)
      = [] :=
    List.filter_eq_nil_iff.mpr (fun r hr hc => h r hr (of_decide_eq_true hc))
  have hmap : st.rows.map (fun r =>
      if r.id = rid ∧ r.chat_id = owner then { r with message := m } else r)
      = st.rows := by
    have hc := List.map_congr_left
      (l := st.rows)
      (f := fun r =>
        if r.id = rid ∧ r.chat_id = owner then { r with message := m } else r)
      (g := fun r => r)
      (fun r hr => if_neg (h r hr))
    rw [hc, List.map_id']
  have hupd : updateMessage rid owner m st = (0, st) := by
    simp only [updateMessage]
    rw [hupdnil, hmap]
    simp
  refine ⟨by rw [hdel], ?_, by rw [hupd], ?_, ?_⟩
  · simp [deleteHandler, hdel]
  · simp [updateHandler, hupd]
  · intro rid2 owner2 r hr hne
    simp only [deleteHandler, deleteReminder, listByOwner]
    refine List.mem_filter.mpr ⟨List.mem_filter.mpr ⟨hr, ?_⟩, by simp⟩
    refine decide_eq_true ?_
    intro hcon
    exact hne hcon.2

/-- C8: an update on `(rid, owner)` can change only the `message` field of
the rows matching both the id and the owner; the other five fields of a
matching row, and every field of every non-matching row, are unchanged,
and no row is added or removed. -/
theorem c8_update_touches_only_message (st : Store) (rid : Nat)
    (owner m : List Char) :
    (updateMessage rid owner m st).2.rows.length = st.rows.length ∧
    ∀ (n : Nat) (r : Reminder), st.rows[n]? = some r →
      (updateMessage rid owner m st).2.rows[n]? =
        some (if r.id = rid ∧ r.chat_id = owner
          then { r with message := m } else r) := by
  constructor
  · simp [updateMessage]
  · intro n r hr
    simp [updateMessage, List.getElem?_map, hr]

/-- C9: the matched-day list is exactly the set of day names that occur as
(case-insensitive) contiguous substrings of `dayTimePart` — not tokenized,
so a day name inside a longer word still matches — each day at most once,
in canonical `sunday..saturday` order regardless of input order; and an
empty match list makes the handler reply with the day-error. -/
theorem c9_day_matching (raw owner : List Char) (st : Store) :
    (∀ d, d ∈ foundDaysOf (toLowerStr raw) ↔
      d ∈ daysOfWeek ∧
        containsSub d (toLowerStr (dayTimePartOf (toLowerStr raw))) = true) ∧
    List.Sublist (foundDaysOf (toLowerStr raw)) daysOfWeek ∧
    (foundDaysOf (toLowerStr raw)).Nodup ∧
    (containsSub everyL (toLowerStr raw) = true →
      foundDaysOf (toLowerStr raw) = [] →
      addReminder owner raw st = (.errNoDays, st)) ∧
    foundDaysOf (toLowerStr "x every somewednesdays 8pm".toList)
      = ["wednesday".toList] ∧
    foundDaysOf (toLowerStr "x every wednesday and sunday 8pm".toList)
      = ["sunday".toList, "wednesday".toList] := by
  refine ⟨?_, List.filter_sublist daysOfWeek, List.Nodup.filter _ (by decide),
    ?_, by decide, by decide⟩
  · intro d
    rw [foundDaysOf]
    exact List.mem_filter
  · intro h1 h2
    simp only [addReminder]
    rw [if_pos h1, if_pos h2]

/-- C10: every message stored by a successful add contains no upper-case
letter (the handler lower-cases the whole argument before splitting),
whereas an update writes the new message into the matching row verbatim,
preserving its casing. -/
theorem c10_casing (owner raw newMsg : List Char) (st : Store) (rid : Nat)
    (ds : List (List Char)) (ts : List Char) (st' : Store) :
    (addReminder owner raw st = (.ok ds ts, st') →
      ∀ r ∈ st'.rows, r ∈ st.rows ∨ noUpper r.message = true) ∧
    (∀ (n : Nat) (r : Reminder), st.rows[n]? = some r →
      r.id = rid → r.chat_id = owner →
      (updateMessage rid owner newMsg st).2.rows[n]? =
        some { r with message := newMsg }) := by
  constructor
  · intro h r hr
    obtain ⟨h1, hds, hts, hst⟩ := addReminder_ok h
    rw [hst, insertAll_eq] at hr
    rcases List.mem_append.mp hr with hl | hrt
    · exact Or.inl hl
    · right
      have hm := freshRows_mem _ _ _ _ _ r hrt
      rw [hm.2.1]
      exact noUpper_of_segment (segment_messagePartOf (toLowerStr raw))
        (noUpper_toLowerStr raw)
  · intro n r hr hid hchat
    simp [updateMessage, List.getElem?_map, hr, hid, hchat]

/-! ### Witnesses -/

theorem c3_amended_split_semantics_witness :
    containsSub everyL "a every b every c".toList = true ∧
    (messagePartRawOf "a every b every c".toList =
        beforeFirst everyL "a every b every c".toList ∧
      dayTimePartRawOf "a every b every c".toList =
        beforeFirst everyL (afterFirst everyL "a every b every c".toList)) :=
  ⟨by decide, c3_amended_split_semantics "a every b every c".toList (by decide)⟩

theorem c4_amended_delete_many_witness :
    deleteRemindersHandler "9".toList "abc".toList ⟨[], 1⟩ =
      (.errNoIds, ⟨[], 1⟩) :=
  (c4_amended_delete_many "9".toList "abc".toList ⟨[], 1⟩).2.1 (by decide)

/-- A second add example used by the C5 witness. -/
def c5Arg : List Char := "remind pay rent every monday and friday 9am".toList

/-- The two rows created by `c5Arg` on an empty store. -/
def c5Row1 : Reminder :=
  ⟨1, "7".toList, "pay rent".toList, "monday".toList, "09:00".toList, yesL⟩

def c5Row2 : Reminder :=
  ⟨2, "7".toList, "pay rent".toList, "friday".toList, "09:00".toList, yesL⟩

theorem c5_one_row_per_day_witness :
    ∃ newRows : List Reminder,
      (⟨[c5Row1, c5Row2], 3⟩ : Store).rows =
        (⟨[], 1⟩ : Store).rows ++ newRows ∧
      newRows.length = (["monday".toList, "friday".toList] :
        List (List Char)).length ∧
      (["monday".toList, "friday".toList] : List (List Char)).Nodup ∧
      newRows.map Reminder.day_of_week = ["monday".toList, "friday".toList] ∧
      (∀ r ∈ newRows, r.chat_id = "7".toList ∧
        r.message = messagePartOf (toLowerStr c5Arg) ∧
        r.time = "09:00".toList) ∧
      (newRows.map Reminder.id).Nodup :=
  @c5_one_row_per_day "7".toList c5Arg ⟨[], 1⟩
    ["monday".toList, "friday".toList] "09:00".toList
    ⟨[c5Row1, c5Row2], 3⟩ (by decide)

theorem c6_rejected_add_unchanged_witness :
    addReminder "5".toList "take out trash monday 8pm".toList ⟨[], 1⟩ =
      (.errNoEvery, ⟨[], 1⟩) ∧
    addReminder "5".toList "x every 8pm".toList ⟨[], 1⟩ =
      (.errNoDays, ⟨[], 1⟩) ∧
    addReminder "5".toList "x every monday".toList ⟨[], 1⟩ =
      (.errNoTime, ⟨[], 1⟩) :=
  ⟨(c6_rejected_add_unchanged "5".toList "take out trash monday 8pm".toList
      ⟨[], 1⟩).1 (by decide),
   (c6_rejected_add_unchanged "5".toList "x every 8pm".toList ⟨[], 1⟩).2.1
      (by decide) (by decide),
   (c6_rejected_add_unchanged "5".toList "x every monday".toList ⟨[], 1⟩).2.2
      (by decide) (by decide) (by decide)⟩

/-- The store used by the C7 witness: one reminder owned by `alice`. -/
def c7Row : Reminder :=
  ⟨1, "alice".toList, "water plants".toList, "monday".toList,
   "09:00".toList, yesL⟩

theorem c7_not_found_is_noop_witness :
    (deleteReminder 1 "bob".toList ⟨[c7Row], 2⟩).1 = 0 ∧
    deleteHandler 1 "bob".toList ⟨[c7Row], 2⟩ =
      (.notFound 1, ⟨[c7Row], 2⟩) ∧
    (updateMessage 1 "bob".toList "x".toList ⟨[c7Row], 2⟩).1 = 0 ∧
    updateHandler 1 "bob".toList "x".toList ⟨[c7Row], 2⟩ =
      (.notFound 1, ⟨[c7Row], 2⟩) ∧
    (∀ (rid2 : Nat) (owner2 : List Char) (r : Reminder),
      r ∈ (⟨[c7Row], 2⟩ : Store).rows →
      r.chat_id ≠ owner2 →
      r ∈ listByOwner r.chat_id (deleteHandler rid2 owner2 ⟨[c7Row], 2⟩).2) :=
  @c7_not_found_is_noop ⟨[c7Row], 2⟩ 1 "bob".toList "x".toList (by decide)

/-- The row used by the C8 witness. -/
def c8Row : Reminder :=
  ⟨1, "alice".toList, "old text".toList, "monday".toList,
   "09:00".toList, yesL⟩

theorem c8_update_touches_only_message_witness :
    (⟨[c8Row], 2⟩ : Store).rows[0]? = some c8Row ∧
    (updateMessage 1 "alice".toList "NEW".toList ⟨[c8Row], 2⟩).2.rows[0]? =
      some (if c8Row.id = 1 ∧ c8Row.chat_id = "alice".toList
        then { c8Row with message := "NEW".toList } else c8Row) :=
  ⟨by decide,
   (c8_update_touches_only_message ⟨[c8Row], 2⟩ 1 "alice".toList
      "NEW".toList).2 0 c8Row (by decide)⟩

theorem c9_day_matching_witness :
    addReminder "3".toList "x every 9am".toList ⟨[], 1⟩ =
      (.errNoDays, ⟨[], 1⟩) :=
  (c9_day_matching "x every 9am".toList "3".toList ⟨[], 1⟩).2.2.2.1
    (by decide) (by decide)

/-- An add argument with upper-case letters, used by the C10 witness. -/
def c10Arg : List Char := "Remind Buy MILK every Tuesday 7pm".toList

/-- The row created by `c10Arg` on an empty store. -/
def c10Row : Reminder :=
  ⟨1, "8".toList, "buy milk".toList, "tuesday".toList, "19:00".toList, yesL⟩

theorem c10_casing_witness :
    (∀ r ∈ (⟨[c10Row], 2⟩ : Store).rows,
      r ∈ (⟨[], 1⟩ : Store).rows ∨ noUpper r.message = true) ∧
    (updateMessage 1 "8".toList "Buy OAT Milk".toList ⟨[c10Row], 2⟩).2.rows[0]?
      = some { c10Row with message := "Buy OAT Milk".toList } :=
  ⟨(c10_casing "8".toList c10Arg "Buy OAT Milk".toList ⟨[], 1⟩ 1
      ["tuesday".toList] "19:00".toList ⟨[c10Row], 2⟩).1 (by decide),
   (c10_casing "8".toList c10Arg "Buy OAT Milk".toList ⟨[c10Row], 2⟩ 1
      ["tuesday".toList] "19:00".toList ⟨[c10Row], 2⟩).2 0 c10Row
      (by decide) (by decide) (by decide)⟩

end ReminderBot
